import Mathlib

/-!
Shallow embedding of the ray-casting core of `raycast.py` and
`raycast_vary_height.py` (Mekire/pygame-raycasting-experiment).

Both files share the same grid-traversal geometry: from a point, compute the
candidate step to the next vertical grid line and to the next horizontal grid
line, take the shorter, sample the map height one half-step into the
approached cell, and accumulate distance.  Python floats are modelled as real
numbers; `float("inf")` (the `NO_WALL` sentinel) is modelled by `⊤ : EReal`;
the `ZeroDivisionError` branch of the step computation and the `TypeError`
that arithmetic on `None` coordinates would raise are modelled by `Option`
(`none` = the Python code raises).
-/

namespace Raycast

/-- A ray-traversal point: `Origin` / `Point` objects of the two sources after
construction or after `inspect` ran on them.  `shading`, `offset` and
`length` start out as Python `None` (the origin never gets them), hence
`Option ℝ`. -/
structure Point where
  x : ℝ
  y : ℝ
  height : ℝ
  distance : ℝ
  shading : Option ℝ
  offset : Option ℝ
  length : Option ℝ

/-- The origin element: `Origin(point)` of `raycast.py` (equally `Point(point)` with default
`length=None` of `raycast_vary_height.py`): height 0, distance 0. -/
def Origin (p : ℝ × ℝ) : Point :=
  { x := p.1, y := p.2, height := 0, distance := 0
    shading := none, offset := none, length := none }

/-- Result of the step computation (`Step.__init__` in `raycast.py`,
`Point.step` in `raycast_vary_height.py`) before `inspect` runs: either a
finite grid-line crossing with its position and segment length, or the
`ZeroDivisionError` branch (`x = y = None`, `length = NO_WALL`). -/
inductive StepRes where
  | deg : StepRes
  | ok (x y len : ℝ) : StepRes

/-- The segment length of a candidate step, infinite in the degenerate
branch (`NO_WALL = float("inf")`). -/
noncomputable def StepRes.length : StepRes → EReal
  | .deg => ⊤
  | .ok _ _ len => (len : EReal)

/-- The expression `dx = math.floor(x+1)-x if run > 0 else math.ceil(x-1)-x`: displacement
of the stepped coordinate to the next grid line in the direction of `run`. -/
noncomputable def dxOf (run x : ℝ) : ℝ :=
  if 0 < run then (⌊x + 1⌋ : ℝ) - x else (⌈x - 1⌉ : ℝ) - x

/-- The step computation `Step.__init__(rise, run, x, y, invert)` of `raycast.py`, identically the
body of `Point.step` of `raycast_vary_height.py` (there the caller's `x`/`y`
swap for `invert` happens inside the method; the computation is the same).
`dx = floor(x+1)-x if run > 0 else ceil(x-1)-x`, `dy = dx*(rise/run)`
(raising iff `run == 0`), `length = hypot(dx, dy)`. -/
noncomputable def step (rise run x y : ℝ) (invert : Bool) : StepRes :=
  if run = 0 then .deg
  else
    let dx := dxOf run x
    let dy := dx * (rise / run)
    .ok (if invert then y + dy else x + dx)
        (if invert then x + dx else y + dy)
        (Real.sqrt (dx ^ 2 + dy ^ 2))

/-- The method `GameMap.inspect` of `raycast.py`, identically `Point.inspect` of
`raycast_vary_height.py`, parameterised by the map's height query `get`.
Applied to the chosen candidate step; `useY` selects which coordinate the
caller passed as the `offset` argument (`step_x.y` for the vertical-crossing
candidate, `step_y.x` for the horizontal one).  On the degenerate candidate
(`x`/`y` are `None`) the Python code raises a `TypeError`: `none`. -/
noncomputable def inspect (get : ℝ → ℝ → ℝ) (sin cos : ℝ)
    (shift_x shift_y : ℝ) (distance : ℝ) (useY : Bool) :
    StepRes → Option Point
  | .deg => none
  | .ok x y len =>
    let dx := if cos < 0 then shift_x else 0
    let dy := if sin < 0 then shift_y else 0
    let offset := if useY then y else x
    some { x := x, y := y
           height := get (x - dx) (y - dy)
           distance := distance + len
           shading := some (if shift_x ≠ 0 then (if cos < 0 then 2 else 0)
                            else (if sin < 0 then 2 else 1))
           offset := some (offset - ⌊offset⌋)
           length := some len }

/-- One iteration of the ray loop body, shared verbatim by `GameMap.ray`
(`raycast.py`) and `GameMap.cast_ray` (`raycast_vary_height.py`): build both
candidate steps, pick the strictly shorter vertical-crossing candidate else
the horizontal one, and `inspect` it. -/
noncomputable def nextStep (get : ℝ → ℝ → ℝ) (sin cos : ℝ)
    (origin : Point) : Option Point :=
  let step_x := step sin cos origin.x origin.y false
  let step_y := step cos sin origin.y origin.x true
  if step_x.length < step_y.length then
    inspect get sin cos 1 0 origin.distance true step_x
  else
    inspect get sin cos 0 1 origin.distance false step_y

/-- The query `GameMap.get` of `raycast.py`: the wall grid is a dict whose keys are
exactly the coordinates of `[0, size) × [0, size)` with boolean values
(`randomize` inserts every coordinate), and `dict.get(point, -1)` falls back
to `-1` off the grid.  Python booleans compare and multiply as `1`/`0`. -/
noncomputable def mapGet (size : ℤ) (grid : ℤ → ℤ → Bool) (x y : ℝ) : ℝ :=
  if 0 ≤ ⌊x⌋ ∧ ⌊x⌋ < size ∧ 0 ≤ ⌊y⌋ ∧ ⌊y⌋ < size then
    (if grid ⌊x⌋ ⌊y⌋ then 1 else 0)
  else -1

/-- The query `GameMap.get` of `raycast_vary_height.py`: the wall grid is a sparse dict
(`randomize` inserts only wall cells), and `dict.get(point, -1)` returns `-1`
for any absent key — off the grid or an in-range empty cell alike. -/
noncomputable def mapGetVary (grid : ℤ → ℤ → Option ℝ) (x y : ℝ) : ℝ :=
  (grid ⌊x⌋ ⌊y⌋).getD (-1)

/-- The shape of any grid `GameMap.randomize` of `raycast_vary_height.py` can
produce for a map of the given size: entries only at in-range coordinates,
heights drawn from `random.choice((0.6, 1, 1.5))`. -/
def RandomizedVary (size : ℤ) (grid : ℤ → ℤ → Option ℝ) : Prop :=
  ∀ p q h, grid p q = some h →
    (0 ≤ p ∧ p < size ∧ 0 ≤ q ∧ q < size ∧ (h = 0.6 ∨ h = 1 ∨ h = 1.5))

/-!
Termination of the ray loops.  Every iteration advances the point by
`(dx, dy)` collinear with the direction `(cos, sin)`, with a strictly
positive segment length, and lands one past an integer grid line on the
stepped axis: the floor (respectively minus the ceiling, for a negatively
oriented axis) of the stepped coordinate increases by exactly one while the
other coordinate's never decreases.  Since the coordinate a ray reaches when
its cumulative distance exhausts `range` is invariant along the ray, the
number of grid lines still reachable within the range bounds the remaining
iterations.
-/

/-- The count of grid lines the coordinate `coord` has passed, oriented along
the sign of the direction component `u` (so that it never decreases as the
traversal advances). -/
noncomputable def axisMark (u coord : ℝ) : ℤ :=
  if 0 < u then ⌊coord⌋ else if u < 0 then -⌈coord⌉ else 0

theorem axisMark_mono (u : ℝ) {a b : ℝ} (h1 : 0 < u → a ≤ b)
    (h2 : u < 0 → b ≤ a) : axisMark u a ≤ axisMark u b := by
  unfold axisMark
  split_ifs with hu hv
  · exact Int.floor_le_floor (h1 hu)
  · exact neg_le_neg (Int.ceil_le_ceil (h2 hv))
  · exact le_refl 0

/-- The stepped axis advances exactly one grid line. -/
theorem axisMark_advance (u x : ℝ) (hu : u ≠ 0) :
    axisMark u (x + dxOf u x) = axisMark u x + 1 := by
  unfold dxOf
  rcases hu.lt_or_lt with h | h
  · simp only [axisMark, if_neg (not_lt.mpr h.le), if_pos h]
    have harg : x + ((⌈x - 1⌉ : ℝ) - x) = ((⌈x - 1⌉ : ℤ) : ℝ) := by ring
    rw [harg, Int.ceil_intCast, Int.ceil_sub_one]
    ring
  · simp only [axisMark, if_pos h]
    have harg : x + ((⌊x + 1⌋ : ℝ) - x) = ((⌊x + 1⌋ : ℤ) : ℝ) := by ring
    rw [harg, Int.floor_intCast, Int.floor_add_one]

/-- The step displacement on the stepped axis points the way of the
direction component: `dx / run > 0`. -/
theorem da_div_pos (u x : ℝ) (hu : u ≠ 0) :
    0 < dxOf u x / u := by
  unfold dxOf
  rcases hu.lt_or_lt with h | h
  · rw [if_neg (not_lt.mpr h.le)]
    apply div_pos_of_neg_of_neg _ h
    have hc := Int.ceil_lt_add_one x
    rw [Int.ceil_sub_one]
    push_cast
    linarith
  · rw [if_pos h]
    apply div_pos _ h
    have hf := Int.lt_floor_add_one x
    rw [Int.floor_add_one]
    push_cast
    linarith

theorem axisMark_budget (u n R d coord : ℝ) (hn0 : 0 < n) (hd : d ≤ R) :
    axisMark u coord ≤ axisMark u (coord + u / n * (R - d)) := by
  apply axisMark_mono
  · intro hu
    have h0 : 0 ≤ u / n * (R - d) :=
      mul_nonneg (div_nonneg hu.le hn0.le) (sub_nonneg.mpr hd)
    linarith
  · intro hu
    have h0 : 0 ≤ -(u / n) * (R - d) :=
      mul_nonneg (neg_nonneg.mpr (div_neg_of_neg_of_pos hu hn0).le)
        (sub_nonneg.mpr hd)
    nlinarith

/-- Core of the termination argument, for one loop iteration stepping the
`u` axis (displacement `da`), dragging the `w` axis along (`db`), with
`n = hypot u w` and segment length `len = hypot da db`. -/
theorem rayFuel_core (u w R d a b n da db len : ℝ)
    (hu : u ≠ 0) (hd : d ≤ R) (hn0 : 0 < n) (hnsq : n ^ 2 = u ^ 2 + w ^ 2)
    (hda : da = dxOf u a)
    (hdb : db = da * (w / u))
    (hlen : len = Real.sqrt (da ^ 2 + db ^ 2)) :
    (axisMark u (a + da + u / n * (R - (d + len))) - axisMark u (a + da)).toNat
      + (axisMark w (b + db + w / n * (R - (d + len))) - axisMark w (b + db)).toNat
      + (if d + len ≤ R then 1 else 0)
    < (axisMark u (a + u / n * (R - d)) - axisMark u a).toNat
      + (axisMark w (b + w / n * (R - d)) - axisMark w b).toNat + 1 := by
  have hpos : 0 < da / u := hda ▸ da_div_pos u a hu
  have e1 : da ^ 2 + db ^ 2 = ((da / u) * n) ^ 2 := by
    have e2 : ((da / u) * n) ^ 2 = (da / u) ^ 2 * (u ^ 2 + w ^ 2) := by
      rw [mul_pow, hnsq]
    rw [e2, hdb]
    field_simp
    ring
  have hL : len = (da / u) * n := by
    rw [hlen, e1, Real.sqrt_sq (mul_pos hpos hn0).le]
  have hulen : u / n * len = da := by
    rw [hL]
    field_simp
    ring
  have hwlen : w / n * len = db := by
    rw [hL, hdb]
    field_simp
    ring
  have harg_u : a + da + u / n * (R - (d + len)) = a + u / n * (R - d) := by
    rw [← hulen]
    ring
  have harg_w : b + db + w / n * (R - (d + len)) = b + w / n * (R - d) := by
    rw [← hwlen]
    ring
  have hadv : axisMark u (a + da) = axisMark u a + 1 := by
    rw [hda]
    exact axisMark_advance u a hu
  have hdb2 : db = w * (da / u) := by
    rw [hdb]
    ring
  have hBmono : axisMark w b ≤ axisMark w (b + db) := by
    apply axisMark_mono
    · intro hw
      have h0 : 0 < w * (da / u) := mul_pos hw hpos
      nlinarith [hdb2]
    · intro hw
      have h0 : 0 < -w * (da / u) := mul_pos (neg_pos.mpr hw) hpos
      nlinarith [hdb2]
  have hACu : axisMark u a ≤ axisMark u (a + u / n * (R - d)) :=
    axisMark_budget u n R d a hn0 hd
  rw [harg_u, harg_w, hadv]
  by_cases hq : d + len ≤ R
  · have h2 : axisMark u a + 1 ≤ axisMark u (a + u / n * (R - d)) := by
      have hb := axisMark_budget u n R (d + len) (a + da) hn0 hq
      rw [harg_u, hadv] at hb
      exact hb
    rw [if_pos hq]
    omega
  · rw [if_neg hq]
    omega

theorem step_deg (rise x y : ℝ) (invert : Bool) :
    step rise 0 x y invert = .deg := by
  rw [step, if_pos rfl]

theorem step_ok (rise run x y : ℝ) (invert : Bool) (h : run ≠ 0) :
    step rise run x y invert =
      .ok (if invert then y + dxOf run x * (rise / run) else x + dxOf run x)
          (if invert then x + dxOf run x else y + dxOf run x * (rise / run))
          (Real.sqrt (dxOf run x ^ 2 + (dxOf run x * (rise / run)) ^ 2)) := by
  rw [step, if_neg h]

theorem step_length_deg (rise x y : ℝ) (invert : Bool) :
    (step rise 0 x y invert).length = ⊤ := by
  rw [step_deg, StepRes.length]

theorem step_length_ok (rise run x y : ℝ) (invert : Bool) (h : run ≠ 0) :
    (step rise run x y invert).length =
      ((Real.sqrt (dxOf run x ^ 2 + (dxOf run x * (rise / run)) ^ 2) : ℝ) :
        EReal) := by
  rw [step_ok rise run x y invert h, StepRes.length]

/-- The vertical-crossing candidate was chosen: the next point advances `x`
to the next grid line in the direction of `cos`, dragging `y` along the ray;
the height sample shifts one cell west exactly when moving in `-x`; the
shading tag is 2 (east face) when moving in `-x`, 0 (west face) otherwise;
the texture offset is the fractional part of the crossing's `y`. -/
theorem nextStep_eq_x (get : ℝ → ℝ → ℝ) (s c : ℝ) (p : Point) (hc : c ≠ 0)
    (hcmp : (step s c p.x p.y false).length < (step c s p.y p.x true).length) :
    nextStep get s c p = some
      { x := p.x + dxOf c p.x
        y := p.y + dxOf c p.x * (s / c)
        height := get (p.x + dxOf c p.x - if c < 0 then 1 else 0)
                      (p.y + dxOf c p.x * (s / c))
        distance := p.distance +
          Real.sqrt (dxOf c p.x ^ 2 + (dxOf c p.x * (s / c)) ^ 2)
        shading := some (if c < 0 then 2 else 0)
        offset := some ((p.y + dxOf c p.x * (s / c)) -
          ⌊p.y + dxOf c p.x * (s / c)⌋)
        length := some
          (Real.sqrt (dxOf c p.x ^ 2 + (dxOf c p.x * (s / c)) ^ 2)) } := by
  simp only [nextStep]
  rw [if_pos hcmp, step_ok s c p.x p.y false hc]
  simp [inspect]

/-- The horizontal-crossing candidate was chosen (the comparison of the
candidate lengths failed): symmetric to `nextStep_eq_x` with the roles of the
axes swapped; shading 2 (north face) when moving in `-y`, 1 (south face)
otherwise; the texture offset is the fractional part of the crossing's `x`. -/
theorem nextStep_eq_y (get : ℝ → ℝ → ℝ) (s c : ℝ) (p : Point) (hs : s ≠ 0)
    (hcmp : ¬ (step s c p.x p.y false).length <
      (step c s p.y p.x true).length) :
    nextStep get s c p = some
      { x := p.x + dxOf s p.y * (c / s)
        y := p.y + dxOf s p.y
        height := get (p.x + dxOf s p.y * (c / s))
                      (p.y + dxOf s p.y - if s < 0 then 1 else 0)
        distance := p.distance +
          Real.sqrt (dxOf s p.y ^ 2 + (dxOf s p.y * (c / s)) ^ 2)
        shading := some (if s < 0 then 2 else 1)
        offset := some ((p.x + dxOf s p.y * (c / s)) -
          ⌊p.x + dxOf s p.y * (c / s)⌋)
        length := some
          (Real.sqrt (dxOf s p.y ^ 2 + (dxOf s p.y * (c / s)) ^ 2)) } := by
  simp only [nextStep]
  rw [if_neg hcmp, step_ok c s p.y p.x true hs]
  simp [inspect]

/-- A ray whose direction has both components zero: both candidates are the
`ZeroDivisionError` sentinel, the horizontal one is selected (`inf < inf` is
false) and `inspect` then crashes on its `None` coordinates. -/
theorem nextStep_none (get : ℝ → ℝ → ℝ) (p : Point) :
    nextStep get 0 0 p = none := by
  rw [nextStep]
  simp only [step_deg, StepRes.length]
  rw [if_neg (lt_irrefl ⊤), inspect]

/-- The loop variant: grid lines of each axis still reachable before the
cumulative distance exhausts `range`, plus one for the final
range-overshooting iteration. -/
noncomputable def rayFuel (s c R : ℝ) (p : Point) : ℕ :=
  let n := Real.sqrt (s ^ 2 + c ^ 2)
  (axisMark c (p.x + c / n * (R - p.distance)) - axisMark c p.x).toNat
    + (axisMark s (p.y + s / n * (R - p.distance)) - axisMark s p.y).toNat
    + (if p.distance ≤ R then 1 else 0)

theorem rayFuel_decreases (get : ℝ → ℝ → ℝ) (s c R : ℝ) (p q : Point)
    (hd : p.distance ≤ R) (h : nextStep get s c p = some q) :
    rayFuel s c R q < rayFuel s c R p := by
  have hsumsq : ∀ u w : ℝ, u ≠ 0 → 0 < u ^ 2 + w ^ 2 := by
    intro u w hu
    have h2 : 0 < u ^ 2 := by rcases hu.lt_or_lt with h1 | h1 <;> nlinarith
    nlinarith [sq_nonneg w]
  by_cases hcmp :
      (step s c p.x p.y false).length < (step c s p.y p.x true).length
  · have hc : c ≠ 0 := by
      intro hc0
      subst hc0
      rw [step_length_deg] at hcmp
      exact not_top_lt hcmp
    rw [nextStep_eq_x get s c p hc hcmp] at h
    have hq := Option.some.inj h
    subst hq
    have hnsq : Real.sqrt (s ^ 2 + c ^ 2) ^ 2 = c ^ 2 + s ^ 2 := by
      rw [Real.sq_sqrt (by nlinarith [hsumsq c s hc])]
      ring
    have core := rayFuel_core c s R p.distance p.x p.y
      (Real.sqrt (s ^ 2 + c ^ 2)) (dxOf c p.x) (dxOf c p.x * (s / c))
      (Real.sqrt (dxOf c p.x ^ 2 + (dxOf c p.x * (s / c)) ^ 2)) hc hd
      (Real.sqrt_pos.mpr (by nlinarith [hsumsq c s hc])) hnsq rfl rfl rfl
    simp only [rayFuel]
    rw [if_pos hd]
    exact core
  · have hs : s ≠ 0 := by
      intro hs0
      subst hs0
      refine absurd h ?_
      simp only [nextStep]
      rw [if_neg hcmp, step_deg]
      simp [inspect]
    rw [nextStep_eq_y get s c p hs hcmp] at h
    have hq := Option.some.inj h
    subst hq
    have hnsq : Real.sqrt (s ^ 2 + c ^ 2) ^ 2 = s ^ 2 + c ^ 2 := by
      rw [Real.sq_sqrt (by nlinarith [hsumsq s c hs])]
    have core := rayFuel_core s c R p.distance p.y p.x
      (Real.sqrt (s ^ 2 + c ^ 2)) (dxOf s p.y) (dxOf s p.y * (c / s))
      (Real.sqrt (dxOf s p.y ^ 2 + (dxOf s p.y * (c / s)) ^ 2)) hs hd
      (Real.sqrt_pos.mpr (by nlinarith [hsumsq s c hs])) hnsq rfl rfl rfl
    simp only [rayFuel]
    rw [if_pos hd]
    omega

namespace GameMap

/-- The loop `GameMap.ray` of `raycast.py`: the fixed-height traversal loop.  Keeps
stepping while the current point's height is `<= 0` and its cumulative
distance is `<= range`, accumulating the visited points origin-first;
`none` models the loop body raising. -/
noncomputable def ray (get : ℝ → ℝ → ℝ) (sin cos range : ℝ)
    (origin : Point) : Option (List Point) :=
  if h : origin.height ≤ 0 ∧ origin.distance ≤ range then
    match hn : nextStep get sin cos origin with
    | none => none
    | some next => (ray get sin cos range next).map (origin :: ·)
  else some [origin]
termination_by rayFuel sin cos range origin
decreasing_by exact rayFuel_decreases get sin cos range origin next h.2 hn

/-- The entry point `GameMap.cast` of `raycast.py`: precompute `sin`/`cos` of the angle and
run the traversal loop from the origin point. -/
noncomputable def cast (get : ℝ → ℝ → ℝ) (point : ℝ × ℝ)
    (angle cast_range : ℝ) : Option (List Point) :=
  ray get (Real.sin angle) (Real.cos angle) cast_range (Origin point)

/-- The `while` loop of `GameMap.cast_ray` of `raycast_vary_height.py`:
keeps stepping while the current point's cumulative distance is
`<= cast_range` (regardless of heights). -/
noncomputable def cast_ray_loop (get : ℝ → ℝ → ℝ) (sin cos cast_range : ℝ)
    (origin : Point) : Option (List Point) :=
  if h : origin.distance ≤ cast_range then
    match hn : nextStep get sin cos origin with
    | none => none
    | some next => (cast_ray_loop get sin cos cast_range next).map (origin :: ·)
  else some [origin]
termination_by rayFuel sin cos cast_range origin
decreasing_by exact rayFuel_decreases get sin cos cast_range origin next h hn

/-- The entry point `GameMap.cast_ray` of `raycast_vary_height.py`. -/
noncomputable def cast_ray (get : ℝ → ℝ → ℝ) (point : ℝ × ℝ)
    (angle cast_range : ℝ) : Option (List Point) :=
  cast_ray_loop get (Real.sin angle) (Real.cos angle) cast_range (Origin point)

theorem ray_stop (get : ℝ → ℝ → ℝ) (s c R : ℝ) (p : Point)
    (h : ¬(p.height ≤ 0 ∧ p.distance ≤ R)) :
    ray get s c R p = some [p] := by
  rw [ray.eq_def, dif_neg h]

theorem ray_go (get : ℝ → ℝ → ℝ) (s c R : ℝ) (p q : Point)
    (hcond : p.height ≤ 0 ∧ p.distance ≤ R)
    (hn : nextStep get s c p = some q) :
    ray get s c R p = (ray get s c R q).map (p :: ·) := by
  rw [ray.eq_def, dif_pos hcond]
  split
  · next heq => rw [hn] at heq; cases heq
  · next q2 heq =>
      rw [hn] at heq
      cases heq
      rfl

theorem cast_ray_loop_stop (get : ℝ → ℝ → ℝ) (s c R : ℝ) (p : Point)
    (h : ¬ p.distance ≤ R) :
    cast_ray_loop get s c R p = some [p] := by
  rw [cast_ray_loop.eq_def, dif_neg h]

theorem cast_ray_loop_go (get : ℝ → ℝ → ℝ) (s c R : ℝ) (p q : Point)
    (hcond : p.distance ≤ R) (hn : nextStep get s c p = some q) :
    cast_ray_loop get s c R p = (cast_ray_loop get s c R q).map (p :: ·) := by
  rw [cast_ray_loop.eq_def, dif_pos hcond]
  split
  · next heq => rw [hn] at heq; cases heq
  · next q2 heq =>
      rw [hn] at heq
      cases heq
      rfl

end GameMap

/-- Unless both direction components are zero, one loop iteration always
produces a next point: its segment length is finite and strictly positive,
its cumulative distance grows by exactly that length, and it advances to the
next grid line of one axis, dragging the other coordinate along the ray. -/
theorem nextStep_spec (get : ℝ → ℝ → ℝ) (s c : ℝ) (p : Point)
    (h : ¬(s = 0 ∧ c = 0)) :
    ∃ q len, nextStep get s c p = some q ∧ 0 < len ∧
      q.distance = p.distance + len ∧ q.length = some len ∧
      ((c ≠ 0 ∧ q.x = p.x + dxOf c p.x ∧ q.y = p.y + dxOf c p.x * (s / c)) ∨
       (s ≠ 0 ∧ q.y = p.y + dxOf s p.y ∧
         q.x = p.x + dxOf s p.y * (c / s))) := by
  have len_pos : ∀ u w a : ℝ, u ≠ 0 →
      0 < Real.sqrt (dxOf u a ^ 2 + (dxOf u a * (w / u)) ^ 2) := by
    intro u w a hu
    have h1 : 0 < dxOf u a / u := da_div_pos u a hu
    have h2 : dxOf u a ≠ 0 := by
      intro h0
      rw [h0, zero_div] at h1
      exact lt_irrefl 0 h1
    have h3 : 0 < dxOf u a ^ 2 := by
      rcases h2.lt_or_lt with h4 | h4 <;> nlinarith
    exact Real.sqrt_pos.mpr (by nlinarith [sq_nonneg (dxOf u a * (w / u))])
  by_cases hcmp :
      (step s c p.x p.y false).length < (step c s p.y p.x true).length
  · have hc : c ≠ 0 := by
      intro hc0
      subst hc0
      rw [step_length_deg] at hcmp
      exact not_top_lt hcmp
    refine ⟨_, _, nextStep_eq_x get s c p hc hcmp, len_pos c s p.x hc,
      rfl, rfl, Or.inl ⟨hc, rfl, rfl⟩⟩
  · have hs : s ≠ 0 := by
      intro hs0
      subst hs0
      have hc : c ≠ 0 := fun hc0 => h ⟨rfl, hc0⟩
      apply hcmp
      rw [step_length_ok 0 c p.x p.y false hc, step_length_deg]
      exact EReal.coe_lt_top _
    refine ⟨_, _, nextStep_eq_y get s c p hs hcmp, len_pos s c p.y hs,
      rfl, rfl, Or.inr ⟨hs, rfl, rfl⟩⟩

/-- Structure of every chain the variable-height loop returns: the loop
terminates without raising, the chain starts at the origin point, every
element but the last has cumulative distance within range (the loop appends
nothing past the first overshoot), the last element overshoots, cumulative
distance is strictly increasing, an axis whose direction component is zero
never changes, and every non-origin element carries a finite positive
segment length. -/
theorem cast_ray_loop_chain (get : ℝ → ℝ → ℝ) (s c R : ℝ)
    (h : ¬(s = 0 ∧ c = 0)) (p : Point) :
    ∃ l, GameMap.cast_ray_loop get s c R p = some l ∧ l.head? = some p ∧
      (∀ x ∈ l.dropLast, x.distance ≤ R) ∧
      (∃ z, l.getLast? = some z ∧ ¬ z.distance ≤ R) ∧
      List.Chain' (fun a b => a.distance < b.distance) l ∧
      (s = 0 → ∀ x ∈ l, x.y = p.y) ∧ (c = 0 → ∀ x ∈ l, x.x = p.x) ∧
      (∀ x ∈ l.tail, ∃ le, x.length = some le ∧ 0 < le) := by
  suffices H : ∀ n p, rayFuel s c R p ≤ n →
      (∃ l, GameMap.cast_ray_loop get s c R p = some l ∧ l.head? = some p ∧
        (∀ x ∈ l.dropLast, x.distance ≤ R) ∧
        (∃ z, l.getLast? = some z ∧ ¬ z.distance ≤ R) ∧
        List.Chain' (fun a b => a.distance < b.distance) l ∧
        (s = 0 → ∀ x ∈ l, x.y = p.y) ∧ (c = 0 → ∀ x ∈ l, x.x = p.x) ∧
        (∀ x ∈ l.tail, ∃ le, x.length = some le ∧ 0 < le)) by
    exact H _ p le_rfl
  intro n
  induction n with
  | zero =>
    intro p hp
    by_cases hd : p.distance ≤ R
    · exfalso
      simp only [rayFuel] at hp
      rw [if_pos hd] at hp
      omega
    · refine ⟨[p], GameMap.cast_ray_loop_stop get s c R p hd, rfl, by simp,
        ⟨p, rfl, hd⟩, List.chain'_singleton p, ?_, ?_, by simp⟩
      · intro _ x hx
        rw [List.mem_singleton.mp hx]
      · intro _ x hx
        rw [List.mem_singleton.mp hx]
  | succ n ih =>
    intro p hp
    by_cases hd : p.distance ≤ R
    · obtain ⟨q, len, hq, hlen, hdist, hqlen, hbranch⟩ :=
        nextStep_spec get s c p h
      have hfuel := rayFuel_decreases get s c R p q hd hq
      obtain ⟨l', hl', hhead, hdrop, hlast, hchain, hys, hxs, htail⟩ :=
        ih q (by omega)
      cases l' with
      | nil => exact absurd hhead (by simp)
      | cons a t =>
        have ha : a = q := by simpa using hhead
        subst ha
        refine ⟨p :: a :: t, ?_, rfl, ?_, ?_, ?_, ?_, ?_, ?_⟩
        · rw [GameMap.cast_ray_loop_go get s c R p a hd hq, hl']
          rfl
        · intro x hx
          rw [List.dropLast_cons₂] at hx
          rcases List.mem_cons.mp hx with rfl | hx
          · exact hd
          · exact hdrop x hx
        · obtain ⟨z, hz, hzd⟩ := hlast
          exact ⟨z, by rw [List.getLast?_cons_cons]; exact hz, hzd⟩
        · rw [List.chain'_cons]
          refine ⟨?_, hchain⟩
          rw [hdist]
          linarith
        · intro hs0 x hx
          rcases List.mem_cons.mp hx with rfl | hx
          · rfl
          · rw [hys hs0 x hx]
            rcases hbranch with ⟨_, _, hqy⟩ | ⟨hsne, _, _⟩
            · rw [hqy, hs0]
              simp
            · exact absurd hs0 hsne
        · intro hc0 x hx
          rcases List.mem_cons.mp hx with rfl | hx
          · rfl
          · rw [hxs hc0 x hx]
            rcases hbranch with ⟨hcne, _, _⟩ | ⟨_, _, hqx⟩
            · exact absurd hc0 hcne
            · rw [hqx, hc0]
              simp
        · intro x hx
          rcases List.mem_cons.mp hx with rfl | hx
          · exact ⟨len, hqlen, hlen⟩
          · exact htail x hx
    · refine ⟨[p], GameMap.cast_ray_loop_stop get s c R p hd, rfl, by simp,
        ⟨p, rfl, hd⟩, List.chain'_singleton p, ?_, ?_, by simp⟩
      · intro _ x hx
        rw [List.mem_singleton.mp hx]
      · intro _ x hx
        rw [List.mem_singleton.mp hx]

/-- Structure of every chain the fixed-height loop (`GameMap.ray` of
`raycast.py`) returns: as `cast_ray_loop_chain`, but every element except
the last additionally has non-positive sampled height (the loop halts at the
first positive height as well as at the first range overshoot), and the last
element fails the loop condition. -/
theorem ray_chain (get : ℝ → ℝ → ℝ) (s c R : ℝ)
    (h : ¬(s = 0 ∧ c = 0)) (p : Point) :
    ∃ l, GameMap.ray get s c R p = some l ∧ l.head? = some p ∧
      (∀ x ∈ l.dropLast, x.height ≤ 0 ∧ x.distance ≤ R) ∧
      (∃ z, l.getLast? = some z ∧ ¬(z.height ≤ 0 ∧ z.distance ≤ R)) ∧
      List.Chain' (fun a b => a.distance < b.distance) l ∧
      (s = 0 → ∀ x ∈ l, x.y = p.y) ∧ (c = 0 → ∀ x ∈ l, x.x = p.x) ∧
      (∀ x ∈ l.tail, ∃ le, x.length = some le ∧ 0 < le) := by
  suffices H : ∀ n p, rayFuel s c R p ≤ n →
      (∃ l, GameMap.ray get s c R p = some l ∧ l.head? = some p ∧
        (∀ x ∈ l.dropLast, x.height ≤ 0 ∧ x.distance ≤ R) ∧
        (∃ z, l.getLast? = some z ∧ ¬(z.height ≤ 0 ∧ z.distance ≤ R)) ∧
        List.Chain' (fun a b => a.distance < b.distance) l ∧
        (s = 0 → ∀ x ∈ l, x.y = p.y) ∧ (c = 0 → ∀ x ∈ l, x.x = p.x) ∧
        (∀ x ∈ l.tail, ∃ le, x.length = some le ∧ 0 < le)) by
    exact H _ p le_rfl
  intro n
  induction n with
  | zero =>
    intro p hp
    by_cases hd : p.height ≤ 0 ∧ p.distance ≤ R
    · exfalso
      simp only [rayFuel] at hp
      rw [if_pos hd.2] at hp
      omega
    · refine ⟨[p], GameMap.ray_stop get s c R p hd, rfl, by simp,
        ⟨p, rfl, hd⟩, List.chain'_singleton p, ?_, ?_, by simp⟩
      · intro _ x hx
        rw [List.mem_singleton.mp hx]
      · intro _ x hx
        rw [List.mem_singleton.mp hx]
  | succ n ih =>
    intro p hp
    by_cases hd : p.height ≤ 0 ∧ p.distance ≤ R
    · obtain ⟨q, len, hq, hlen, hdist, hqlen, hbranch⟩ :=
        nextStep_spec get s c p h
      have hfuel := rayFuel_decreases get s c R p q hd.2 hq
      obtain ⟨l', hl', hhead, hdrop, hlast, hchain, hys, hxs, htail⟩ :=
        ih q (by omega)
      cases l' with
      | nil => exact absurd hhead (by simp)
      | cons a t =>
        have ha : a = q := by simpa using hhead
        subst ha
        refine ⟨p :: a :: t, ?_, rfl, ?_, ?_, ?_, ?_, ?_, ?_⟩
        · rw [GameMap.ray_go get s c R p a hd hq, hl']
          rfl
        · intro x hx
          rw [List.dropLast_cons₂] at hx
          rcases List.mem_cons.mp hx with rfl | hx
          · exact hd
          · exact hdrop x hx
        · obtain ⟨z, hz, hzd⟩ := hlast
          exact ⟨z, by rw [List.getLast?_cons_cons]; exact hz, hzd⟩
        · rw [List.chain'_cons]
          refine ⟨?_, hchain⟩
          rw [hdist]
          linarith
        · intro hs0 x hx
          rcases List.mem_cons.mp hx with rfl | hx
          · rfl
          · rw [hys hs0 x hx]
            rcases hbranch with ⟨_, _, hqy⟩ | ⟨hsne, _, _⟩
            · rw [hqy, hs0]
              simp
            · exact absurd hs0 hsne
        · intro hc0 x hx
          rcases List.mem_cons.mp hx with rfl | hx
          · rfl
          · rw [hxs hc0 x hx]
            rcases hbranch with ⟨hcne, _, _⟩ | ⟨_, _, hqx⟩
            · exact absurd hc0 hcne
            · rw [hqx, hc0]
              simp
        · intro x hx
          rcases List.mem_cons.mp hx with rfl | hx
          · exact ⟨len, hqlen, hlen⟩
          · exact htail x hx
    · refine ⟨[p], GameMap.ray_stop get s c R p hd, rfl, by simp,
        ⟨p, rfl, hd⟩, List.chain'_singleton p, ?_, ?_, by simp⟩
      · intro _ x hx
        rw [List.mem_singleton.mp hx]
      · intro _ x hx
        rw [List.mem_singleton.mp hx]

/-- The player state used by `Player.walk` (identical in both files). -/
structure Player where
  x : ℝ
  y : ℝ
  direction : ℝ
  paces : ℝ

/-- The method `Player.walk(distance, game_map)` of both files: `dx`/`dy` from the
facing direction, then two sequential guarded mutations — `self.x += dx`
only if the map query at `(x+dx, y)` (with the original `y`) is `<= 0`, then
`self.y += dy` only if the query at the possibly-updated `x` and `y+dy` is
`<= 0` — and the paces odometer always advances. -/
noncomputable def Player.walk (p : Player) (distance : ℝ)
    (get : ℝ → ℝ → ℝ) : Player :=
  let dx := Real.cos p.direction * distance
  let dy := Real.sin p.direction * distance
  let x1 := if get (p.x + dx) p.y ≤ 0 then p.x + dx else p.x
  let y1 := if get x1 (p.y + dy) ≤ 0 then p.y + dy else p.y
  { p with x := x1, y := y1, paces := p.paces + distance }

/-- The projected vertical screen interval (`WallInfo` named tuple): the
`top` float and the `int()`-truncated pixel height. -/
structure WallInfo where
  top : ℝ
  height : ℤ

/-- Python `int()` on a float: truncation toward zero. -/
noncomputable def truncInt (r : ℝ) : ℤ :=
  if 0 ≤ r then ⌊r⌋ else ⌈r⌉

/-- The projector `Camera.project(height, angle, distance)` of both files, with the
camera's screen height as an explicit first argument:
`z = max(distance*cos(angle), 0.2)`, `wall_height = screen_height*height/z`,
`bottom = screen_height/2*(1+1/z)`, returning
`WallInfo(bottom-wall_height, int(wall_height))`. -/
noncomputable def Camera.project
    (screen_height height angle distance : ℝ) : WallInfo :=
  let z := max (distance * Real.cos angle) 0.2
  let wall_height := screen_height * height / z
  let bottom := screen_height / 2 * (1 + 1 / z)
  { top := bottom - wall_height, height := truncInt wall_height }

/-- The alpha computed by `Camera.draw_shadow` of `raycast.py`:
`shade_value = step.distance + step.shading`,
`max_light = shade_value / float(self.light_range - light)`,
`alpha = 255 * min(1, max(max_light, 0))`. -/
noncomputable def Camera.draw_shadow_alpha
    (light_range distance shading light : ℝ) : ℝ :=
  255 * min 1 (max ((distance + shading) / (light_range - light)) 0)

/-- The alpha computed by `Camera.draw_shadow` of `raycast_vary_height.py`:
there `max_light = shade_value / float(self.light_range) - light` (the
ambient light is subtracted after the division, and the divisor is the
plain light range). -/
noncomputable def Camera.draw_shadow_alpha_vary
    (light_range distance shading light : ℝ) : ℝ :=
  255 * min 1 (max ((distance + shading) / light_range - light) 0)

/-- The `hit` scan of `Camera.draw_column` of `raycast.py`:
`hit = 0; while hit < len(ray) and ray[hit].height <= 0: hit += 1`, i.e. the
index of the first chain element with positive height (the chain's length
when there is none). -/
noncomputable def hitIndex : List Point → ℕ
  | [] => 0
  | p :: rest => if p.height ≤ 0 then hitIndex rest + 1 else 0

/-- In `Camera.draw_column` of `raycast.py` the loop runs `ray_index` from
`len(ray)-1` down to `0` and draws the textured slice and its shadow exactly
when `ray_index == hit`: the set of indices receiving a wall slice. -/
def wallDrawnFixed (ray : List Point) (i : ℕ) : Prop :=
  i < ray.length ∧ i = hitIndex ray

/-- In `Camera.draw_column` of `raycast_vary_height.py` the same loop draws
the textured slice and its shadow for every step with `step.height > 0`. -/
def wallDrawnVary (ray : List Point) (i : ℕ) : Prop :=
  ∃ h : i < ray.length, 0 < (ray.get ⟨i, h⟩).height

theorem hitIndex_pos_aux : ∀ (l : List Point) (i : ℕ), hitIndex l = i →
    ∀ (h : i < l.length), 0 < (l.get ⟨i, h⟩).height := by
  intro l
  induction l with
  | nil => intro i _ h; exact absurd h (by simp)
  | cons p rest ih =>
    intro i he h
    by_cases hp : p.height ≤ 0
    · rw [hitIndex, if_pos hp] at he
      cases i with
      | zero => exact absurd he (by omega)
      | succ i =>
        have := ih i (by omega) (by simpa using h)
        simpa using this
    · rw [hitIndex, if_neg hp] at he
      cases he
      simpa using not_le.mp hp

theorem hitIndex_pos (l : List Point) (h : hitIndex l < l.length) :
    0 < (l.get ⟨hitIndex l, h⟩).height :=
  hitIndex_pos_aux l (hitIndex l) rfl h

theorem hitIndex_eq : ∀ (l : List Point) (i : ℕ) (hi : i < l.length),
    0 < (l.get ⟨i, hi⟩).height →
    (∀ j (hj : j < l.length), j < i → (l.get ⟨j, hj⟩).height ≤ 0) →
    hitIndex l = i := by
  intro l
  induction l with
  | nil => intro i hi _ _; exact absurd hi (by simp)
  | cons p rest ih =>
    intro i hi hpos hneg
    cases i with
    | zero =>
      have hp : 0 < p.height := by simpa using hpos
      rw [hitIndex, if_neg (not_le.mpr hp)]
    | succ i =>
      have hp : p.height ≤ 0 := by
        have h0 := hneg 0 (by simp) (Nat.succ_pos i)
        simpa using h0
      rw [hitIndex, if_pos hp]
      have hrec : hitIndex rest = i := by
        apply ih i (by simpa using hi)
        · simpa using hpos
        · intro j hj hji
          have hj1 := hneg (j + 1) (by simpa using hj) (by omega)
          simpa using hj1
      omega

/-- One iteration of the loop for a ray due `+x` (`sin = 0`, `cos = 1`):
the vertical-crossing candidate is finite, the horizontal one is infinite,
so the ray advances `x` to the next grid line along the row `y`. -/
theorem nextStep_horiz (get : ℝ → ℝ → ℝ) (p : Point) :
    nextStep get 0 1 p = some
      { x := p.x + dxOf 1 p.x
        y := p.y
        height := get (p.x + dxOf 1 p.x) p.y
        distance := p.distance + dxOf 1 p.x
        shading := some 0
        offset := some (p.y - ⌊p.y⌋)
        length := some (dxOf 1 p.x) } := by
  have hd : 0 < dxOf 1 p.x := by
    have h1 := da_div_pos 1 p.x one_ne_zero
    simpa using h1
  have hcmp : (step 0 1 p.x p.y false).length <
      (step 1 0 p.y p.x true).length := by
    rw [step_length_ok 0 1 p.x p.y false one_ne_zero, step_length_deg]
    exact EReal.coe_lt_top _
  rw [nextStep_eq_x get 0 1 p one_ne_zero hcmp]
  norm_num [Real.sqrt_sq hd.le]

/-- The generic chain element of the scenario rays: position `(x, 5/2)` on
the row `y = 5/2`, sampling the map there, wearing shading tag 0 and offset
fraction 1/2. -/
noncomputable def hpt (get : ℝ → ℝ → ℝ) (x d le : ℝ) : Point :=
  { x := x, y := 5 / 2, height := get x (5 / 2), distance := d
    shading := some 0, offset := some (1 / 2), length := some le }

/-- The full chain of any variable-height cast from `(1/2, 5/2)` at angle 0
with range 8: the origin and nine vertical-grid-line crossings at
`x = 1 .. 9`, with cumulative distances `1/2, 3/2, …, 17/2` (the last one
first exceeds the range). -/
theorem horiz_chain (get : ℝ → ℝ → ℝ) :
    GameMap.cast_ray get (1 / 2, 5 / 2) 0 8 = some
      [Origin (1 / 2, 5 / 2),
       hpt get 1 (1 / 2) (1 / 2), hpt get 2 (3 / 2) 1, hpt get 3 (5 / 2) 1,
       hpt get 4 (7 / 2) 1, hpt get 5 (9 / 2) 1, hpt get 6 (11 / 2) 1,
       hpt get 7 (13 / 2) 1, hpt get 8 (15 / 2) 1,
       hpt get 9 (17 / 2) 1] := by
  have h0 : nextStep get 0 1 (Origin (1 / 2, 5 / 2)) =
      some (hpt get 1 (1 / 2) (1 / 2)) := by
    rw [nextStep_horiz]
    norm_num [Origin, hpt, dxOf]
  have hstep : ∀ k d le : ℝ, (⌊k⌋ : ℝ) = k →
      nextStep get 0 1 (hpt get k d le) = some (hpt get (k + 1) (d + 1) 1) := by
    intro k d le hk
    rw [nextStep_horiz]
    norm_num [hpt, dxOf, hk]
  have h1 := hstep 1 (1 / 2) (1 / 2) (by norm_num)
  have h2 := hstep 2 (3 / 2) 1 (by norm_num)
  have h3 := hstep 3 (5 / 2) 1 (by norm_num)
  have h4 := hstep 4 (7 / 2) 1 (by norm_num)
  have h5 := hstep 5 (9 / 2) 1 (by norm_num)
  have h6 := hstep 6 (11 / 2) 1 (by norm_num)
  have h7 := hstep 7 (13 / 2) 1 (by norm_num)
  have h8 := hstep 8 (15 / 2) 1 (by norm_num)
  norm_num at h1 h2 h3 h4 h5 h6 h7 h8
  rw [GameMap.cast_ray, Real.sin_zero, Real.cos_zero,
    GameMap.cast_ray_loop_go _ _ _ _ _ _ (by norm_num [Origin]) h0,
    GameMap.cast_ray_loop_go _ _ _ _ _ _ (by norm_num [hpt]) h1,
    GameMap.cast_ray_loop_go _ _ _ _ _ _ (by norm_num [hpt]) h2,
    GameMap.cast_ray_loop_go _ _ _ _ _ _ (by norm_num [hpt]) h3,
    GameMap.cast_ray_loop_go _ _ _ _ _ _ (by norm_num [hpt]) h4,
    GameMap.cast_ray_loop_go _ _ _ _ _ _ (by norm_num [hpt]) h5,
    GameMap.cast_ray_loop_go _ _ _ _ _ _ (by norm_num [hpt]) h6,
    GameMap.cast_ray_loop_go _ _ _ _ _ _ (by norm_num [hpt]) h7,
    GameMap.cast_ray_loop_go _ _ _ _ _ _ (by norm_num [hpt]) h8,
    GameMap.cast_ray_loop_stop _ _ _ _ _ (by norm_num [hpt])]
  rfl

/-- The 4×4 scenario map whose only wall is at cell `(2, 2)` with height 1
(a possible output of the variable-height `randomize`). -/
def grid1 : ℤ → ℤ → Option ℝ :=
  fun i j => if i = 2 ∧ j = 2 then some 1 else none

/-- A variable-height map with a wall of height 1 at `(2, 2)` and a taller
wall of height 1.5 at `(3, 2)` behind it. -/
def grid2 : ℤ → ℤ → Option ℝ :=
  fun i j =>
    if i = 2 ∧ j = 2 then some 1
    else if i = 3 ∧ j = 2 then some 1.5 else none

/-- C1: on the 4×4 map whose only wall is at `(2,2)` with height 1, the
variable-height cast from `(0.5, 2.5)` at angle 0 with range 8 returns a
chain containing a hit step (positive sampled height) of height 1 at
cumulative distance exactly `1.5`, carrying the shading tag 0 of a
west-facing vertical (x-grid-line) crossing and texture-offset fraction
exactly `0.5`; it is the only step of the chain with positive height. -/
theorem claim1_round_trip_hit :
    ∃ l, GameMap.cast_ray (mapGetVary grid1) (1 / 2, 5 / 2) 0 8 = some l ∧
      (∃ hit ∈ l, 0 < hit.height ∧ hit.height = 1 ∧
        hit.distance = 3 / 2 ∧ hit.shading = some 0 ∧
        hit.offset = some (1 / 2)) ∧
      ∀ x ∈ l, 0 < x.height →
        (x.height = 1 ∧ x.distance = 3 / 2 ∧ x.shading = some 0 ∧
          x.offset = some (1 / 2)) := by
  refine ⟨_, horiz_chain (mapGetVary grid1), ?_, ?_⟩
  · refine ⟨hpt (mapGetVary grid1) 2 (3 / 2) 1, by simp, ?_⟩
    norm_num [hpt, mapGetVary, grid1]
  · intro x hx hpos
    simp only [List.mem_cons, List.not_mem_nil, or_false] at hx
    rcases hx with rfl | rfl | rfl | rfl | rfl | rfl | rfl | rfl | rfl | rfl <;>
      norm_num [Origin, hpt, mapGetVary, grid1] at hpos ⊢

/-- C9's counterexample: with a wall of height 1 at `(2,2)` and a taller
wall at `(3,2)`, the variable-height column compositor draws a textured wall
slice (with its shading overlay) at two distinct steps of one traced ray,
not exactly one. -/
theorem claim9_counterexample :
    ∃ l, GameMap.cast_ray (mapGetVary grid2) (1 / 2, 5 / 2) 0 8 = some l ∧
      wallDrawnVary l 2 ∧ wallDrawnVary l 3 := by
  refine ⟨_, horiz_chain (mapGetVary grid2), ?_, ?_⟩
  · exact ⟨by norm_num, by norm_num [List.get, hpt, mapGetVary, grid2]⟩
  · exact ⟨by norm_num, by norm_num [List.get, hpt, mapGetVary, grid2]⟩

/-- For a real angle the direction components can never both vanish. -/
theorem sin_cos_not_both_zero (angle : ℝ) :
    ¬(Real.sin angle = 0 ∧ Real.cos angle = 0) := by
  rintro ⟨hs, hc⟩
  have hpyth := Real.sin_sq_add_cos_sq angle
  rw [hs, hc] at hpyth
  norm_num at hpyth

/-- C2: for every traversal with positive finite range whose direction
components are not both zero, the loop of either variant terminates and
returns a chain headed by the origin; in both variants every element but
the last has cumulative distance within the range (so nothing is appended
past the first overshooting step), and in the fixed-height variant every
element but the last additionally has non-positive sampled height (the loop
also stops at the first positive-height step). -/
theorem claim2_termination (get_f get_v : ℝ → ℝ → ℝ) (s c R : ℝ)
    (p0 : ℝ × ℝ) (hR : 0 < R) (hsc : ¬(s = 0 ∧ c = 0)) :
    (∃ l, GameMap.cast_ray_loop get_v s c R (Origin p0) = some l ∧
      l.head? = some (Origin p0) ∧ ∀ x ∈ l.dropLast, x.distance ≤ R) ∧
    (∃ l, GameMap.ray get_f s c R (Origin p0) = some l ∧
      l.head? = some (Origin p0) ∧
      ∀ x ∈ l.dropLast, x.distance ≤ R ∧ x.height ≤ 0) := by
  constructor
  · obtain ⟨l, hl, hhead, hdrop, -, -, -, -, -⟩ :=
      cast_ray_loop_chain get_v s c R hsc (Origin p0)
    exact ⟨l, hl, hhead, hdrop⟩
  · obtain ⟨l, hl, hhead, hdrop, -, -, -, -, -⟩ :=
      ray_chain get_f s c R hsc (Origin p0)
    exact ⟨l, hl, hhead, fun x hx => ⟨(hdrop x hx).2, (hdrop x hx).1⟩⟩

/-- Witness for C2 at `s = 0`, `c = 1`, `R = 1`, origin `(0, 0)`, with the
trivial empty-map query. -/
theorem claim2_termination_witness :
    (∃ l, GameMap.cast_ray_loop (fun _ _ => -1) 0 1 1 (Origin (0, 0)) =
        some l ∧ l.head? = some (Origin (0, 0)) ∧
        ∀ x ∈ l.dropLast, x.distance ≤ 1) ∧
    (∃ l, GameMap.ray (fun _ _ => -1) 0 1 1 (Origin (0, 0)) = some l ∧
        l.head? = some (Origin (0, 0)) ∧
        ∀ x ∈ l.dropLast, x.distance ≤ 1 ∧ x.height ≤ 0) :=
  claim2_termination (fun _ _ => -1) (fun _ _ => -1) 0 1 1 (0, 0)
    one_pos (by norm_num)

/-- C3: for a cast whose angle has `cos = 0` or `sin = 0`, the degenerate
axis's candidate step always carries infinite length (`NO_WALL`), both
variants return a chain without raising, and traversal advances along the
non-degenerate axis only: with `sin = 0` every chain point keeps the
origin's `y`, with `cos = 0` every chain point keeps the origin's `x`. -/
theorem claim3_axis_aligned (get_f get_v : ℝ → ℝ → ℝ) (point : ℝ × ℝ)
    (angle R : ℝ) (haxis : Real.cos angle = 0 ∨ Real.sin angle = 0) :
    (∀ (rise x y : ℝ) (invert : Bool),
      (step rise 0 x y invert).length = ⊤) ∧
    (∃ l, GameMap.cast get_f point angle R = some l ∧
      (Real.sin angle = 0 → ∀ x ∈ l, x.y = point.2) ∧
      (Real.cos angle = 0 → ∀ x ∈ l, x.x = point.1)) ∧
    (∃ l, GameMap.cast_ray get_v point angle R = some l ∧
      (Real.sin angle = 0 → ∀ x ∈ l, x.y = point.2) ∧
      (Real.cos angle = 0 → ∀ x ∈ l, x.x = point.1)) := by
  have hsc := sin_cos_not_both_zero angle
  refine ⟨fun rise x y invert => step_length_deg rise x y invert, ?_, ?_⟩
  · obtain ⟨l, hl, -, -, -, -, hys, hxs, -⟩ :=
      ray_chain get_f (Real.sin angle) (Real.cos angle) R hsc (Origin point)
    exact ⟨l, hl, hys, hxs⟩
  · obtain ⟨l, hl, -, -, -, -, hys, hxs, -⟩ :=
      cast_ray_loop_chain get_v (Real.sin angle) (Real.cos angle) R hsc
        (Origin point)
    exact ⟨l, hl, hys, hxs⟩

/-- Witness for C3 at angle 0 (due `+x`, where `sin = 0`). -/
theorem claim3_axis_aligned_witness :
    (∀ (rise x y : ℝ) (invert : Bool),
      (step rise 0 x y invert).length = ⊤) ∧
    (∃ l, GameMap.cast (fun _ _ => -1) (0, 0) 0 1 = some l ∧
      (Real.sin 0 = 0 → ∀ x ∈ l, x.y = (0, 0).2) ∧
      (Real.cos 0 = 0 → ∀ x ∈ l, x.x = (0, 0).1)) ∧
    (∃ l, GameMap.cast_ray (fun _ _ => -1) (0, 0) 0 1 = some l ∧
      (Real.sin 0 = 0 → ∀ x ∈ l, x.y = (0, 0).2) ∧
      (Real.cos 0 = 0 → ∀ x ∈ l, x.x = (0, 0).1)) :=
  claim3_axis_aligned (fun _ _ => -1) (fun _ _ => -1) (0, 0) 0 1
    (Or.inr Real.sin_zero)

/-- A fixed-height cast with negative range stops immediately: the chain is
just the origin. -/
theorem cast_neg_range (get : ℝ → ℝ → ℝ) :
    GameMap.cast get (0, 0) 0 (-1) = some [Origin (0, 0)] := by
  rw [GameMap.cast, Real.sin_zero, Real.cos_zero,
    GameMap.ray_stop _ _ _ _ _ (by norm_num [Origin])]

/-- A variable-height cast with negative range stops immediately. -/
theorem cast_ray_neg_range (get : ℝ → ℝ → ℝ) :
    GameMap.cast_ray get (0, 0) 0 (-1) = some [Origin (0, 0)] := by
  rw [GameMap.cast_ray, Real.sin_zero, Real.cos_zero,
    GameMap.cast_ray_loop_stop _ _ _ _ _ (by norm_num [Origin])]

/-- C4: along every chain either variant's cast returns, cumulative
distance is non-decreasing — indeed strictly increasing between every two
consecutive elements — and every non-origin step is non-degenerate (finite,
strictly positive segment length). -/
theorem claim4_distance_monotone (get : ℝ → ℝ → ℝ) (point : ℝ × ℝ)
    (angle R : ℝ) (l : List Point)
    (hl : GameMap.cast get point angle R = some l ∨
      GameMap.cast_ray get point angle R = some l) :
    List.Chain' (fun a b => a.distance ≤ b.distance) l ∧
    List.Chain' (fun a b => a.distance < b.distance) l ∧
    ∀ x ∈ l.tail, ∃ le, x.length = some le ∧ 0 < le := by
  have hsc := sin_cos_not_both_zero angle
  rcases hl with hl | hl
  · obtain ⟨l2, hl2, -, -, -, hchain, -, -, htail⟩ :=
      ray_chain get (Real.sin angle) (Real.cos angle) R hsc (Origin point)
    rw [GameMap.cast, hl2] at hl
    cases Option.some.inj hl
    exact ⟨hchain.imp fun _ _ h => le_of_lt h, hchain, htail⟩
  · obtain ⟨l2, hl2, -, -, -, hchain, -, -, htail⟩ :=
      cast_ray_loop_chain get (Real.sin angle) (Real.cos angle) R hsc
        (Origin point)
    rw [GameMap.cast_ray, hl2] at hl
    cases Option.some.inj hl
    exact ⟨hchain.imp fun _ _ h => le_of_lt h, hchain, htail⟩

/-- Witness for C4 on the immediate-stop chain of a negative-range cast. -/
theorem claim4_distance_monotone_witness :
    List.Chain' (fun a b => a.distance ≤ b.distance) [Origin (0, 0)] ∧
    List.Chain' (fun a b => a.distance < b.distance) [Origin (0, 0)] ∧
    ∀ x ∈ ([Origin (0, 0)]).tail, ∃ le, x.length = some le ∧ 0 < le :=
  claim4_distance_monotone (fun _ _ => -1) (0, 0) 0 (-1) [Origin (0, 0)]
    (Or.inl (cast_neg_range (fun _ _ => -1)))

/-- C10: in the fixed-height variant every element of a returned chain
except possibly the last has non-positive sampled height, so a step with
positive height can only sit at the final index: the nearest hit, when one
exists, is always the last step of the chain. -/
theorem claim10_hit_is_last (get : ℝ → ℝ → ℝ) (point : ℝ × ℝ)
    (angle R : ℝ) (l : List Point)
    (hl : GameMap.cast get point angle R = some l) :
    (∀ x ∈ l.dropLast, x.height ≤ 0) ∧
    ∀ i (hi : i < l.length),
      0 < (l.get ⟨i, hi⟩).height → i = l.length - 1 := by
  have hsc := sin_cos_not_both_zero angle
  obtain ⟨l2, hl2, -, hdrop, -, -, -, -, -⟩ :=
    ray_chain get (Real.sin angle) (Real.cos angle) R hsc (Origin point)
  rw [GameMap.cast, hl2] at hl
  cases Option.some.inj hl
  refine ⟨fun x hx => (hdrop x hx).1, ?_⟩
  intro i hi hpos
  by_contra hne
  have hi2 : i < l.dropLast.length := by
    rw [List.length_dropLast]
    omega
  have hget : l.dropLast.get ⟨i, hi2⟩ = l.get ⟨i, hi⟩ := by
    simp [List.get_eq_getElem, List.getElem_dropLast]
  have hmem : l.get ⟨i, hi⟩ ∈ l.dropLast := by
    rw [← hget]
    exact List.get_mem _ _ _
  have hle := (hdrop _ hmem).1
  linarith

/-- Witness for C10 on the immediate-stop chain of a negative-range cast. -/
theorem claim10_hit_is_last_witness :
    (∀ x ∈ ([Origin (0, 0)]).dropLast, x.height ≤ 0) ∧
    ∀ i (hi : i < ([Origin (0, 0)]).length),
      0 < (([Origin (0, 0)]).get ⟨i, hi⟩).height →
        i = ([Origin (0, 0)]).length - 1 :=
  claim10_hit_is_last (fun _ _ => -1) (0, 0) 0 (-1) [Origin (0, 0)]
    (cast_neg_range (fun _ _ => -1))

/-- C5's counterexample: in the variable-height variant the map query
returns the −1 sentinel for an in-range probe too.  On the 4×4 single-wall
map (a legitimate `randomize` output) the probe `(0.5, 0.5)` floors to the
in-range cell `(0, 0)` yet the query answers −1, not a stored height 0 —
so −1 is not returned exactly when the floored coordinate is out of
range. -/
theorem claim5_counterexample :
    RandomizedVary 4 grid1 ∧
    (0 : ℤ) ≤ ⌊(1 / 2 : ℝ)⌋ ∧ ⌊(1 / 2 : ℝ)⌋ < 4 ∧
    mapGetVary grid1 (1 / 2) (1 / 2) = -1 := by
  refine ⟨?_, by norm_num, by norm_num, by norm_num [mapGetVary, grid1]⟩
  intro p q h hh
  by_cases hpq : p = 2 ∧ q = 2
  · rw [grid1, if_pos hpq] at hh
    obtain ⟨rfl, rfl⟩ := hpq
    have h1 : (1 : ℝ) = h := Option.some.inj hh
    exact ⟨by norm_num, by norm_num, by norm_num, by norm_num,
      Or.inr (Or.inl h1.symm)⟩
  · rw [grid1, if_neg hpq] at hh
    cases hh

/-- C5 amended: in `raycast.py` the query returns −1 exactly off the grid
and the stored boolean height (1 or 0) in range; in
`raycast_vary_height.py` it returns −1 exactly when the floored cell is
absent from the sparse grid — off the grid or an in-range empty cell alike —
and every stored (wall) height is positive, so −1 stays distinguishable
from walls. -/
theorem claim5_height_query :
    (∀ (size : ℤ) (grid : ℤ → ℤ → Bool) (x y : ℝ),
      (mapGet size grid x y = -1 ↔
        ¬(0 ≤ ⌊x⌋ ∧ ⌊x⌋ < size ∧ 0 ≤ ⌊y⌋ ∧ ⌊y⌋ < size)) ∧
      ((0 ≤ ⌊x⌋ ∧ ⌊x⌋ < size ∧ 0 ≤ ⌊y⌋ ∧ ⌊y⌋ < size) →
        mapGet size grid x y = if grid ⌊x⌋ ⌊y⌋ then 1 else 0)) ∧
    (∀ (size : ℤ) (grid : ℤ → ℤ → Option ℝ), RandomizedVary size grid →
      ∀ x y : ℝ,
      (mapGetVary grid x y = -1 ↔ grid ⌊x⌋ ⌊y⌋ = none) ∧
      (¬(0 ≤ ⌊x⌋ ∧ ⌊x⌋ < size ∧ 0 ≤ ⌊y⌋ ∧ ⌊y⌋ < size) →
        mapGetVary grid x y = -1) ∧
      ∀ h, grid ⌊x⌋ ⌊y⌋ = some h → mapGetVary grid x y = h ∧ 0 < h) := by
  constructor
  · intro size grid x y
    by_cases hin : 0 ≤ ⌊x⌋ ∧ ⌊x⌋ < size ∧ 0 ≤ ⌊y⌋ ∧ ⌊y⌋ < size
    · refine ⟨?_, fun _ => by rw [mapGet, if_pos hin]⟩
      rw [mapGet, if_pos hin]
      constructor
      · intro hv
        by_cases hg : grid ⌊x⌋ ⌊y⌋ <;> rw [if_pos, hv]  at * <;> norm_num at hv
        all_goals norm_num [hg] at hv
      · intro hcon
        exact absurd hin hcon
    · refine ⟨?_, fun hcon => absurd hcon hin⟩
      rw [mapGet, if_neg hin]
      simp [hin]
  · intro size grid hrand x y
    rcases hg : grid ⌊x⌋ ⌊y⌋ with - | h
    · refine ⟨?_, fun _ => ?_, fun h2 hh2 => ?_⟩
      · rw [mapGetVary, hg]
        simp
      · rw [mapGetVary, hg]
        rfl
      · cases hh2
    · obtain ⟨-, -, -, -, hval⟩ := hrand _ _ _ hg
      have hpos : 0 < h := by
        rcases hval with rfl | rfl | rfl <;> norm_num
      refine ⟨?_, fun hout => ?_, fun h2 hh2 => ?_⟩
      · rw [mapGetVary, hg]
        simp only [Option.getD_some]
        constructor
        · intro hv
          rw [hv] at hpos
          norm_num at hpos
        · intro hv
          cases hv
      · obtain ⟨h1, h2, h3, h4, -⟩ := hrand _ _ _ hg
        exact absurd ⟨h1, h2, h3, h4⟩ hout
      · have hh := Option.some.inj hh2
        subst hh
        exact ⟨by rw [mapGetVary, hg]; rfl, hpos⟩

/-- C6: walking evaluates each axis independently and sequentially: the x
coordinate advances by `cos(direction)*distance` exactly when the map query
at `(x+dx, y)` with the original `y` is empty (`<= 0`), else stays; then
the y coordinate advances by `sin(direction)*distance` exactly when the
query at the possibly-just-updated x and `y+dy` is empty, else stays — so a
blocked axis leaves its coordinate unchanged while the other may still
move (sliding along a wall). -/
theorem claim6_walk_collision (get : ℝ → ℝ → ℝ) (p : Player)
    (distance : ℝ) :
    ((get (p.x + Real.cos p.direction * distance) p.y ≤ 0 →
        (p.walk distance get).x = p.x + Real.cos p.direction * distance) ∧
      (¬ get (p.x + Real.cos p.direction * distance) p.y ≤ 0 →
        (p.walk distance get).x = p.x)) ∧
    ((get (p.walk distance get).x
          (p.y + Real.sin p.direction * distance) ≤ 0 →
        (p.walk distance get).y = p.y + Real.sin p.direction * distance) ∧
      (¬ get (p.walk distance get).x
          (p.y + Real.sin p.direction * distance) ≤ 0 →
        (p.walk distance get).y = p.y)) := by
  refine ⟨⟨fun h1 => ?_, fun h1 => ?_⟩, ⟨fun h2 => ?_, fun h2 => ?_⟩⟩
  · simp only [Player.walk]
    rw [if_pos h1]
  · simp only [Player.walk]
    rw [if_neg h1]
  · simp only [Player.walk] at h2 ⊢
    rw [if_pos h2]
  · simp only [Player.walk] at h2 ⊢
    rw [if_neg h2]

/-- C7: the projector is the pure function computing
`z = max(distance*cos(angle), 0.2)`, pixel height `screen_height*height/z`
(truncated to an integer for the stored height),
`bottom = screen_height/2*(1+1/z)` and `top = bottom - pixel_height`; when
`distance*cos(angle) <= 0.2` the clamp makes the output equal the fixed
value at `z = 0.2`, so it is bounded rather than divergent. -/
theorem claim7_project (screen_height height angle distance : ℝ) :
    Camera.project screen_height height angle distance =
      { top := screen_height / 2 *
            (1 + 1 / max (distance * Real.cos angle) 0.2) -
          screen_height * height / max (distance * Real.cos angle) 0.2
        height := truncInt
          (screen_height * height / max (distance * Real.cos angle) 0.2) } ∧
    (distance * Real.cos angle ≤ 0.2 →
      Camera.project screen_height height angle distance =
        { top := screen_height / 2 * (1 + 1 / (0.2 : ℝ)) -
            screen_height * height / (0.2 : ℝ)
          height := truncInt (screen_height * height / (0.2 : ℝ)) }) := by
  constructor
  · rfl
  · intro hle
    have hz : max (distance * Real.cos angle) 0.2 = (0.2 : ℝ) :=
      max_eq_right hle
    simp only [Camera.project, hz]

/-- C8's counterexample: at distance 5, shading bias 0, ambient light 2 and
the camera's light range 5, the claimed opacity
`clamp01((distance + shading_bias)/(light_range - ambient_light))` scaled to
alpha is 255 — and the fixed-height variant indeed computes 255 — but the
variable-height variant's `draw_shadow` computes alpha 0. -/
theorem claim8_counterexample :
    Camera.draw_shadow_alpha_vary 5 5 0 2 = 0 ∧
    255 * min 1 (max (((5 : ℝ) + 0) / (5 - 2)) 0) = 255 ∧
    Camera.draw_shadow_alpha 5 5 0 2 = 255 := by
  refine ⟨?_, ?_, ?_⟩
  · rw [Camera.draw_shadow_alpha_vary]
    norm_num
  · norm_num
  · rw [Camera.draw_shadow_alpha]
    norm_num

/-- C8 amended: the fixed-height variant's shading overlay alpha is
`255 * clamp01((distance + shading_bias)/(light_range - ambient_light))` as
the claim states; the variable-height variant instead computes
`255 * clamp01((distance + shading_bias)/light_range - ambient_light)` (the
ambient light is subtracted after dividing by the plain light range).  Both
alphas are clamped into `[0, 255]`. -/
theorem claim8_shadow_alpha (light_range distance shading light : ℝ) :
    Camera.draw_shadow_alpha light_range distance shading light =
      255 * min 1 (max ((distance + shading) / (light_range - light)) 0) ∧
    Camera.draw_shadow_alpha_vary light_range distance shading light =
      255 * min 1 (max ((distance + shading) / light_range - light) 0) ∧
    0 ≤ Camera.draw_shadow_alpha light_range distance shading light ∧
    Camera.draw_shadow_alpha light_range distance shading light ≤ 255 ∧
    0 ≤ Camera.draw_shadow_alpha_vary light_range distance shading light ∧
    Camera.draw_shadow_alpha_vary light_range distance shading light ≤
      255 := by
  have hb : ∀ v : ℝ, 0 ≤ 255 * min 1 (max v 0) ∧ 255 * min 1 (max v 0) ≤ 255 := by
    intro v
    have h0 : 0 ≤ min 1 (max v 0) := le_min one_pos.le (le_max_right v 0)
    have h1 : min 1 (max v 0) ≤ 1 := min_le_left 1 (max v 0)
    constructor <;> nlinarith
  exact ⟨rfl, rfl, (hb _).1, (hb _).2, (hb _).1, (hb _).2⟩

/-- C9 amended: both compositors iterate the chain from farthest to
nearest; the fixed-height one draws the textured slice and shadow for
exactly the step at the `hit` index, which over any chain the fixed cast
returns is exactly a step of positive height (there is at most one); the
variable-height one draws them for every step of positive height. -/
theorem claim9_wall_drawn :
    (∀ (get : ℝ → ℝ → ℝ) (point : ℝ × ℝ) (angle R : ℝ) (l : List Point),
      GameMap.cast get point angle R = some l →
      ∀ i, wallDrawnFixed l i ↔
        ∃ h : i < l.length, 0 < (l.get ⟨i, h⟩).height) ∧
    (∀ (l : List Point) (i : ℕ),
      wallDrawnVary l i ↔
        ∃ h : i < l.length, 0 < (l.get ⟨i, h⟩).height) := by
  constructor
  · intro get point angle R l hl i
    have hsc := sin_cos_not_both_zero angle
    obtain ⟨l2, hl2, -, hdrop, -, -, -, -, -⟩ :=
      ray_chain get (Real.sin angle) (Real.cos angle) R hsc (Origin point)
    rw [GameMap.cast, hl2] at hl
    cases Option.some.inj hl
    constructor
    · rintro ⟨hi, rfl⟩
      exact ⟨hi, hitIndex_pos l hi⟩
    · rintro ⟨hi, hpos⟩
      refine ⟨hi, (hitIndex_eq l i hi hpos ?_).symm⟩
      intro j hj hji
      have hj2 : j < l.dropLast.length := by
        rw [List.length_dropLast]
        omega
      have hget : l.dropLast.get ⟨j, hj2⟩ = l.get ⟨j, hj⟩ := by
        simp [List.get_eq_getElem, List.getElem_dropLast]
      have hmem : l.get ⟨j, hj⟩ ∈ l.dropLast := by
        rw [← hget]
        exact List.get_mem _ _ _
      exact (hdrop _ hmem).1
  · intro l i
    exact Iff.rfl

end Raycast
